import Mathlib

/-!
# Verification of the etymology-tree flattening and graph projection

Shallow embedding of the core logic of the `etymology-website` repository:

* `src/app/types/index.ts` — the `RootWord` / `EtymologyWord` data model and
  `formatYear`;
* `src/app/services/wordService.ts` — `flattenEtymologyTree` (with its inner
  `processRoots` loop);
* `src/app/components/EtymologyFlow.tsx` (the current version of the
  component, the one using a hierarchical tree) — `buildSubtree`,
  `collectByDepth`, `createNodes`, `flattenHierarchy` and the edge-creation
  pass, together with the JavaScript `Map` semantics they rely on
  (insertion-ordered association lists whose `set` updates in place).

Machine integers do not occur: years and layout coordinates are exact
(layout coordinates are multiples of 125, modelled in `ℚ` since JavaScript
number arithmetic is exact on them).
-/

/-- The word record. `RootWord` in the source has fields `word`, `language`,
`definition`, `year`, `roots`; `EtymologyWord` extends it with `etymology`.
The JSON data is not schema-enforced, so (as the code itself must tolerate)
any entry may carry an `etymology` field; we therefore give the field to
every record. `derivedTerms`/`cognates` are never read by the modelled code
and are omitted. -/
inductive Word : Type where
  | mk (word language : String) (defn : Option String) (year : Option Int)
      (roots : List Word) (etymology : List Word)

def Word.word : Word → String
  | .mk w _ _ _ _ _ => w

def Word.language : Word → String
  | .mk _ l _ _ _ _ => l

def Word.defn : Word → Option String
  | .mk _ _ d _ _ _ => d

def Word.year : Word → Option Int
  | .mk _ _ _ y _ _ => y

def Word.roots : Word → List Word
  | .mk _ _ _ _ r _ => r

def Word.etymology : Word → List Word
  | .mk _ _ _ _ _ e => e

/-- `formatYear` from `src/app/types/index.ts`:
`if (year === null) return ''; return year > 0 ? year.toString() :
`${Math.abs(year)} BCE``. -/
def formatYear : Option Int → String
  | none => ""
  | some year => if year > 0 then Nat.repr year.toNat else Nat.repr year.natAbs ++ " BCE"

/-! The `processRoots` closure of `flattenEtymologyTree`
(`src/app/services/wordService.ts` lines 34–41): for each entry of the
`roots` array push the entry, then recurse into the entry. -/

mutual

def processRoots : Word → List Word
  | .mk _ _ _ _ roots _ => processRootsList roots

def processRootsList : List Word → List Word
  | [] => []
  | r :: rs => r :: (processRoots r ++ processRootsList rs)

end

/-- `flattenEtymologyTree` (`src/app/services/wordService.ts` lines 20–51):
push the word itself; if the `etymology` array is non-empty push its entries
in order; if the `roots` array is non-empty run the `processRoots` loop over
it (push each root, then recurse). -/
def flattenEtymologyTree (w : Word) : List Word :=
  [w] ++ (if w.etymology.length > 0 then w.etymology else [])
      ++ (if w.roots.length > 0 then processRootsList w.roots else [])

/-! Spec-side description (§4.2.1 step 3): pre-order DFS of one `roots`
entry — the entry itself, then its own `roots` subtrees. -/

mutual

def dfsPre : Word → List Word
  | .mk w l d y roots e => Word.mk w l d y roots e :: dfsForest roots

def dfsForest : List Word → List Word
  | [] => []
  | w :: ws => dfsPre w ++ dfsForest ws

end

theorem processRootsList_eq_dfsForest : ∀ l : List Word, processRootsList l = dfsForest l
  | [] => by simp [processRootsList, dfsForest]
  | (r :: rs) => by
      cases r with
      | mk w lg d y roots e =>
        rw [processRootsList, dfsForest, dfsPre, processRoots,
          processRootsList_eq_dfsForest roots, processRootsList_eq_dfsForest rs]
        simp

/-! Scenario A input (spec §8), built from shared sub-records so that
concrete evaluations share terms. -/

def wEtymLa : Word := .mk "etymologia" "Latin" none (some 1350) [] []

def wEtymon : Word := .mk "etymon" "Greek" none none [] []

def wLogia : Word := .mk "logia" "Greek" none none [] []

def wEtymRoot : Word := .mk "etymologia" "Latin" none (some 1350) [wEtymon, wLogia] []

def wScenA : Word := .mk "etymology" "English" none (some 1398) [wEtymRoot] [wEtymLa]

/-- C1: `flattenEtymologyTree` returns the root at index 0, then the
`etymology` entries in array order (not recursed), then a depth-first
pre-order traversal of the `roots` tree, keeping duplicate surface words;
on the Scenario A input it yields the 5-entry sequence
[etymology, etymologia (chain), etymologia (roots), etymon, logia]. -/
theorem c1_flatten_preorder :
    (∀ w : Word, flattenEtymologyTree w = [w] ++ w.etymology ++ dfsForest w.roots)
    ∧ flattenEtymologyTree wScenA = [wScenA, wEtymLa, wEtymRoot, wEtymon, wLogia] := by
  constructor
  · intro w
    rw [flattenEtymologyTree, processRootsList_eq_dfsForest]
    rcases hE : w.etymology with _ | ⟨e, es⟩ <;>
      rcases hR : w.roots with _ | ⟨r, rs⟩ <;>
      simp [dfsForest]
  · rw [flattenEtymologyTree]
    simp [wScenA, wEtymRoot, Word.etymology, Word.roots,
      processRootsList, processRoots, wEtymon, wLogia]

/-- C8: for every record, the flattening is non-empty and its first element
is the input record itself. -/
theorem c8_flatten_head :
    ∀ w : Word, 1 ≤ (flattenEtymologyTree w).length ∧ (flattenEtymologyTree w).head? = some w := by
  intro w
  refine ⟨?_, ?_⟩ <;> simp [flattenEtymologyTree]

/-! Facts about the decimal representation `Nat.repr` (the embedding of the
JavaScript `number.toString()` on non-negative integers): it is non-empty
and never contains an underscore. -/

theorem length_le_toDigitsCore (b : Nat) :
    ∀ (f n : Nat) (acc : List Char), acc.length ≤ (Nat.toDigitsCore b f n acc).length
  | 0, _, _ => le_refl _
  | f + 1, n, acc => by
      rw [Nat.toDigitsCore]
      split
      · simp
      · exact le_trans (by simp) (length_le_toDigitsCore b f _ _)

theorem one_le_length_toDigitsCore (b f n : Nat) (acc : List Char) :
    acc.length + 1 ≤ (Nat.toDigitsCore b (f + 1) n acc).length := by
  rw [Nat.toDigitsCore]
  split
  · simp
  · exact le_trans (by simp) (length_le_toDigitsCore b f _ _)

theorem repr_ne_empty (n : Nat) : Nat.repr n ≠ "" := by
  intro h
  have h1 := congrArg String.length h
  rw [Nat.repr, Nat.toDigits] at h1
  have h2 := one_le_length_toDigitsCore 10 n n []
  simp only [String.length, List.asString] at h1
  omega

theorem digitChar_ne_underscore (n : Nat) : Nat.digitChar n ≠ '_' := by
  rcases Nat.lt_or_ge n 16 with hl | hg
  · interval_cases n <;> decide
  · intro h
    rw [Nat.digitChar] at h
    repeat rw [if_neg (by omega)] at h
    exact absurd h (by decide)

theorem mem_toDigitsCore (b : Nat) :
    ∀ (f n : Nat) (acc : List Char), ∀ c ∈ Nat.toDigitsCore b f n acc,
      c ∈ acc ∨ ∃ m, c = Nat.digitChar m
  | 0, _, _ => fun _ hc => Or.inl hc
  | f + 1, n, acc => by
      intro c hc
      rw [Nat.toDigitsCore] at hc
      split at hc
      · rcases List.mem_cons.mp hc with h | h
        · exact Or.inr ⟨_, h⟩
        · exact Or.inl h
      · rcases mem_toDigitsCore b f _ _ c hc with h | h
        · rcases List.mem_cons.mp h with h' | h'
          · exact Or.inr ⟨_, h'⟩
          · exact Or.inl h'
        · exact Or.inr h

theorem underscore_not_mem_repr (n : Nat) : '_' ∉ (Nat.repr n).data := by
  intro h
  rw [Nat.repr, Nat.toDigits] at h
  simp only [List.asString] at h
  rcases mem_toDigitsCore 10 (n + 1) n [] '_' h with h' | ⟨m, hm⟩
  · simp at h'
  · exact digitChar_ne_underscore m hm.symm

/-- C10: `formatYear` returns `""` exactly on `null`, the decimal string for
positive years, and `abs(year) ++ " BCE"` for zero or negative years; in
particular `formatYear 0 = "0 BCE"`. -/
theorem c10_formatYear :
    formatYear none = ""
    ∧ (∀ y : Int, formatYear (some y) ≠ "")
    ∧ (∀ y : Int, 0 < y → formatYear (some y) = Nat.repr y.toNat)
    ∧ (∀ y : Int, y ≤ 0 → formatYear (some y) = Nat.repr y.natAbs ++ " BCE")
    ∧ formatYear (some 0) = "0 BCE" := by
  refine ⟨rfl, ?_, ?_, ?_, by decide⟩
  · intro y h
    rw [formatYear] at h
    split at h
    · exact repr_ne_empty _ h
    · have h1 := congrArg String.length h
      rw [String.length_append] at h1
      have h2 : (" BCE" : String).length = 4 := rfl
      have h3 : ("" : String).length = 0 := rfl
      omega
  · intro y hy
    rw [formatYear, if_pos hy]
  · intro y hy
    rw [formatYear, if_neg (by omega)]

/-- Witness for C10 at concrete years on both sides of the case split. -/
theorem c10_formatYear_witness :
    formatYear (some 1398) = "1398" ∧ formatYear (some (-100)) = "100 BCE" := by
  refine ⟨(c10_formatYear.2.2.1 1398 (by decide)).trans (by decide),
    (c10_formatYear.2.2.2.1 (-100) (by decide)).trans (by decide)⟩

/-! ## The graph projection (`EtymologyFlow.tsx`)

JavaScript `Map`s are modelled as insertion-ordered association lists:
`set` updates an existing key in place (keeping its position) and appends a
new key at the end; iteration (`forEach`) follows list order, exactly the
JavaScript iteration order. -/

/-- String-keyed map (`nodeMap`, `parentWordMap`, `nodeIdMap`). -/
abbrev SMap := List (String × String)

def mset (m : SMap) (k v : String) : SMap :=
  match m with
  | [] => [(k, v)]
  | (k', v') :: rest => if k' = k then (k, v) :: rest else (k', v') :: mset rest k v

def mget (m : SMap) (k : String) : Option String :=
  match m with
  | [] => none
  | (k', v') :: rest => if k' = k then some v' else mget rest k

/-- The `HierarchicalWord` of `EtymologyFlow.tsx` (lines 233–237): the object
spread `{...word, children, depth}` — `base` carries all the record's own
fields, to which `children` and `depth` are added. (The `index` field is
assigned by `assignIndices` but never read — `createNodes` re-enumerates —
so it is not modelled.) -/
inductive HWord : Type where
  | mk (base : Word) (children : List HWord) (depth : Nat)

def HWord.base : HWord → Word
  | .mk b _ _ => b

def HWord.children : HWord → List HWord
  | .mk _ c _ => c

def HWord.depth : HWord → Nat
  | .mk _ _ d => d

/-! `buildSubtree` (`EtymologyFlow.tsx` lines 250–275): wrap the word; at
depth 0 only, add the `etymology` entries as children first; then add the
`roots` entries as children; recurse with `depth + 1`. -/

mutual

def buildSubtree : Word → Nat → HWord
  | .mk w l df y roots ety, depth =>
      .mk (.mk w l df y roots ety)
        ((if depth = 0 then buildList ety (depth + 1) else []) ++ buildList roots (depth + 1))
        depth

def buildList : List Word → Nat → List HWord
  | [], _ => []
  | w :: ws, d => buildSubtree w d :: buildList ws d

end

/-- Depth-keyed map of rows (`depthMap`). -/
abbrev DMap := List (Nat × List HWord)

/-- `depthMap.get(depth).push(node)` with creation of a missing row
(`collectByDepth`, lines 288–300). -/
def mpushD (m : DMap) (k : Nat) (v : HWord) : DMap :=
  match m with
  | [] => [(k, [v])]
  | (k', vs) :: rest => if k' = k then (k', vs ++ [v]) :: rest else (k', vs) :: mpushD rest k v

/-! `collectByDepth` (lines 288–300): push the node onto its depth row, then
recurse into the children (depth-first, so rows list nodes in DFS order). -/

mutual

def collectByDepth : HWord → DMap → DMap
  | .mk b cs d, m => collectList cs (mpushD m d (.mk b cs d))

def collectList : List HWord → DMap → DMap
  | [], m => m
  | h :: hs, m => collectList hs (collectByDepth h m)

end

def depthMapOf (root : Word) : DMap := collectByDepth (buildSubtree root 0) []

/-- A positioned flow node. Coordinates are exact rationals: all positions
are multiples of 125, on which JavaScript float arithmetic is exact. -/
structure GNode where
  id : String
  x : ℚ
  y : ℚ
  data : HWord

/-- Node identity ``${word.word}_${depth}_${index}`` (line 330). -/
def mkNodeId (w : String) (d i : Nat) : String :=
  w ++ "_" ++ Nat.repr d ++ "_" ++ Nat.repr i

/-- One row of `createNodes` (lines 321–343): `startX = -totalWidth / 2`
with `totalWidth = (n - 1) * HORIZONTAL_SPACE`, then the `index`-th node is
placed at `startX + index * HORIZONTAL_SPACE` and `depth * VERTICAL_SPACE`,
with `HORIZONTAL_SPACE = 250`, `VERTICAL_SPACE = 200`; the node is appended
and `nodeMap.set(word.word, nodeId)` records its identity. -/
def createRow (d n : Nat) : Nat → List HWord → List GNode × SMap → List GNode × SMap
  | _, [], st => st
  | i, h :: hs, (ns, m) =>
      createRow d n (i + 1) hs
        (ns ++ [{ id := if d = 0 then "main" else mkNodeId h.base.word d i,
                  x := -(((n : ℚ) - 1) * 250 / 2) + (i : ℚ) * 250,
                  y := (d : ℚ) * 200,
                  data := h }],
         mset m h.base.word (if d = 0 then "main" else mkNodeId h.base.word d i))

def createNodes : DMap → List GNode × SMap → List GNode × SMap
  | [], st => st
  | (d, row) :: rest, st => createNodes rest (createRow d row.length 0 row st)

def projectNodes (root : Word) : List GNode :=
  (createNodes (depthMapOf root) ([], [])).1

def nodeIdMapOf (root : Word) : SMap :=
  (createNodes (depthMapOf root) ([], [])).2

/-! `flattenHierarchy` (lines 349–361): for each child record
`parentWordMap.set(child.word, root.word)`, then recurse into the child. -/

mutual

def flattenHierarchy : HWord → SMap → SMap
  | .mk b cs _, m => flattenList b.word cs m

def flattenList : String → List HWord → SMap → SMap
  | _, [], m => m
  | parent, c :: cs, m => flattenList parent cs (flattenHierarchy c (mset m c.base.word parent))

end

def parentMapOf (root : Word) : SMap := flattenHierarchy (buildSubtree root 0) []

/-- A flow edge. -/
structure GEdge where
  id : String
  source : String
  target : String

/-- Edge identity ``e_${sourceId}_to_${targetId}`` (line 387). -/
def mkEdgeId (s t : String) : String := "e_" ++ s ++ "_to_" ++ t

/-- One step of the edge-creation pass (lines 382–413): resolve the parent
and child words through `nodeIdMap`; if both resolve and no edge with the
same identity exists yet, append the edge. -/
def addEdge (nm : SMap) (acc : List GEdge) (cw pw : String) : List GEdge :=
  match mget nm pw, mget nm cw with
  | some s, some t =>
      if acc.any (fun e => e.id == mkEdgeId s t) then acc
      else acc ++ [{ id := mkEdgeId s t, source := s, target := t }]
  | _, _ => acc

def buildEdges (nm : SMap) : SMap → List GEdge → List GEdge
  | [], acc => acc
  | (cw, pw) :: rest, acc => buildEdges nm rest (addEdge nm acc cw pw)

/-- The edge-creation `useMemo` (lines 376–418): it returns (leaving the
initial empty edge list in place) unless there are at least two nodes and
both maps are non-empty; otherwise it folds the edge-creation step over the
`parentChildMap` in insertion order. -/
def projectEdges (root : Word) : List GEdge :=
  if (projectNodes root).length ≤ 1 ∨ (parentMapOf root).isEmpty
      ∨ (nodeIdMapOf root).isEmpty then []
  else buildEdges (nodeIdMapOf root) (parentMapOf root) []

/-! ## Accessor-form equations for the mutual definitions -/

theorem buildSubtree_eq (w : Word) (d : Nat) :
    buildSubtree w d =
      .mk w ((if d = 0 then buildList w.etymology (d + 1) else []) ++ buildList w.roots (d + 1)) d := by
  cases w
  rw [buildSubtree]
  simp [Word.etymology, Word.roots]

theorem collectByDepth_eq (h : HWord) (m : DMap) :
    collectByDepth h m = collectList h.children (mpushD m h.depth h) := by
  cases h
  rw [collectByDepth]
  simp [HWord.children, HWord.depth]

theorem flattenHierarchy_eq (h : HWord) (m : SMap) :
    flattenHierarchy h m = flattenList h.base.word h.children m := by
  cases h
  rw [flattenHierarchy]
  simp [HWord.base, HWord.children]

/-! ## Decomposition of the `createNodes` pass into its node list and its
`nodeMap` (they are threaded through one fold in the source but do not
interact). -/

def rowNodes (d n : Nat) : Nat → List HWord → List GNode
  | _, [] => []
  | i, h :: hs =>
      { id := if d = 0 then "main" else mkNodeId h.base.word d i,
        x := -(((n : ℚ) - 1) * 250 / 2) + (i : ℚ) * 250,
        y := (d : ℚ) * 200,
        data := h } :: rowNodes d n (i + 1) hs

def rowMap (d : Nat) : Nat → List HWord → SMap → SMap
  | _, [], m => m
  | i, h :: hs, m =>
      rowMap d (i + 1) hs (mset m h.base.word (if d = 0 then "main" else mkNodeId h.base.word d i))

def nodesOf : DMap → List GNode
  | [] => []
  | (d, row) :: rest => rowNodes d row.length 0 row ++ nodesOf rest

def mapsOf : DMap → SMap → SMap
  | [], m => m
  | (d, row) :: rest, m => mapsOf rest (rowMap d 0 row m)

theorem createRow_eq (d n : Nat) :
    ∀ (i : Nat) (hs : List HWord) (ns : List GNode) (m : SMap),
      createRow d n i hs (ns, m) = (ns ++ rowNodes d n i hs, rowMap d i hs m)
  | _, [], ns, m => by rw [createRow, rowNodes, rowMap]; simp
  | i, h :: hs, ns, m => by
      rw [createRow, rowNodes, rowMap, createRow_eq d n (i + 1) hs]
      simp

theorem createNodes_eq :
    ∀ (dm : DMap) (ns : List GNode) (m : SMap),
      createNodes dm (ns, m) = (ns ++ nodesOf dm, mapsOf dm m)
  | [], ns, m => by rw [createNodes, nodesOf, mapsOf]; simp
  | (d, row) :: rest, ns, m => by
      rw [createNodes, nodesOf, mapsOf, createRow_eq, createNodes_eq rest]
      simp

theorem projectNodes_eq (root : Word) : projectNodes root = nodesOf (depthMapOf root) := by
  rw [projectNodes, createNodes_eq]
  simp

theorem nodeIdMapOf_eq (root : Word) : nodeIdMapOf root = mapsOf (depthMapOf root) [] := by
  rw [nodeIdMapOf, createNodes_eq]

/-! ## Association-list (`Map`) lemmas -/

theorem mem_mset (m : SMap) (k v : String) :
    ∀ p ∈ mset m k v, p ∈ m ∨ p = (k, v) := by
  induction m with
  | nil => intro p hp; rw [mset] at hp; simp at hp; simp [hp]
  | cons q rest ih =>
      intro p hp
      rw [mset] at hp
      rcases q with ⟨k', v'⟩
      by_cases hk : k' = k
      · rw [if_pos hk] at hp
        rcases List.mem_cons.mp hp with h | h
        · right; exact h
        · left; exact List.mem_cons_of_mem _ h
      · rw [if_neg hk] at hp
        rcases List.mem_cons.mp hp with h | h
        · left; exact h ▸ List.mem_cons_self _ _
        · rcases ih p h with h' | h'
          · left; exact List.mem_cons_of_mem _ h'
          · right; exact h'

theorem mget_mem (m : SMap) (k v : String) (h : mget m k = some v) : (k, v) ∈ m := by
  induction m with
  | nil => rw [mget] at h; exact absurd h (by simp)
  | cons q rest ih =>
      rcases q with ⟨k', v'⟩
      rw [mget] at h
      by_cases hk : k' = k
      · rw [if_pos hk] at h
        subst hk
        obtain rfl : v' = v := by simpa using h
        exact List.mem_cons_self _ _
      · rw [if_neg hk] at h
        exact List.mem_cons_of_mem _ (ih h)

/-! ## Depths in the hierarchical tree -/

mutual

def allGE : Nat → HWord → Bool
  | k, .mk _ cs d => (decide (k ≤ d)) && allGEList k cs

def allGEList : Nat → List HWord → Bool
  | _, [] => true
  | k, h :: hs => allGE k h && allGEList k hs

end

theorem allGEList_append (k : Nat) (xs ys : List HWord)
    (hx : allGEList k xs = true) (hy : allGEList k ys = true) :
    allGEList k (xs ++ ys) = true := by
  induction xs with
  | nil => simpa using hy
  | cons a as ih =>
      rw [List.cons_append, allGEList]
      rw [allGEList] at hx
      simp only [Bool.and_eq_true] at hx ⊢
      exact ⟨hx.1, ih hx.2⟩

mutual

theorem allGE_mono : ∀ (j k : Nat) (h : HWord), j ≤ k → allGE k h = true → allGE j h = true
  | j, k, .mk b cs d => by
      intro hjk hk
      rw [allGE] at hk ⊢
      simp only [Bool.and_eq_true, decide_eq_true_eq] at hk ⊢
      exact ⟨le_trans hjk hk.1, allGEList_mono j k cs hjk hk.2⟩

theorem allGEList_mono : ∀ (j k : Nat) (hs : List HWord), j ≤ k →
    allGEList k hs = true → allGEList j hs = true
  | _, _, [] => by intro _ _; rw [allGEList]
  | j, k, h :: hs => by
      intro hjk hk
      rw [allGEList] at hk ⊢
      simp only [Bool.and_eq_true] at hk ⊢
      exact ⟨allGE_mono j k h hjk hk.1, allGEList_mono j k hs hjk hk.2⟩

end

mutual

theorem buildSubtree_allGE : ∀ (w : Word) (d : Nat), allGE d (buildSubtree w d) = true
  | .mk w l df y roots ety, d => by
      rw [buildSubtree, allGE]
      simp only [Bool.and_eq_true, decide_eq_true_eq]
      refine ⟨le_refl d, ?_⟩
      have hr := buildList_allGE roots (d + 1)
      have he := buildList_allGE ety (d + 1)
      have : allGEList (d + 1)
          ((if d = 0 then buildList ety (d + 1) else []) ++ buildList roots (d + 1)) = true := by
        split
        · exact allGEList_append _ _ _ he hr
        · simpa using hr
      exact allGEList_mono d (d + 1) _ (Nat.le_succ d) this

theorem buildList_allGE : ∀ (ws : List Word) (d : Nat), allGEList d (buildList ws d) = true
  | [], d => by rw [buildList, allGEList]
  | w :: ws, d => by
      rw [buildList, allGEList]
      simp only [Bool.and_eq_true]
      exact ⟨buildSubtree_allGE w d, buildList_allGE ws d⟩

end

/-! The depth-0 head of the depth map stays in place while the depth-≥1
subtrees are collected, and all other keys are ≥ 1. -/

mutual

theorem collectByDepth_keep0 : ∀ (h : HWord) (v : List HWord) (m : DMap),
    allGE 1 h = true → collectByDepth h ((0, v) :: m) = (0, v) :: collectByDepth h m
  | .mk b cs d, v, m => by
      intro hge
      rw [allGE] at hge
      simp only [Bool.and_eq_true, decide_eq_true_eq] at hge
      rw [collectByDepth, collectByDepth, mpushD, if_neg (by omega)]
      exact collectList_keep0 cs v _ hge.2

theorem collectList_keep0 : ∀ (hs : List HWord) (v : List HWord) (m : DMap),
    allGEList 1 hs = true → collectList hs ((0, v) :: m) = (0, v) :: collectList hs m
  | [], v, m => by intro _; rw [collectList, collectList]
  | h :: hs, v, m => by
      intro hge
      rw [allGEList] at hge
      simp only [Bool.and_eq_true] at hge
      rw [collectList, collectList, collectByDepth_keep0 h v m hge.1,
        collectList_keep0 hs v _ hge.2]

end

theorem mem_mpushD (m : DMap) (k : Nat) (v : HWord) :
    ∀ p ∈ mpushD m k v, p ∈ m ∨ p.1 = k := by
  induction m with
  | nil => intro p hp; rw [mpushD] at hp; simp at hp; simp [hp]
  | cons q rest ih =>
      intro p hp
      rcases q with ⟨k', vs⟩
      rw [mpushD] at hp
      by_cases hk : k' = k
      · rw [if_pos hk] at hp
        rcases List.mem_cons.mp hp with h | h
        · right; rw [h, hk]
        · left; exact List.mem_cons_of_mem _ h
      · rw [if_neg hk] at hp
        rcases List.mem_cons.mp hp with h | h
        · left; exact h ▸ List.mem_cons_self _ _
        · rcases ih p h with h' | h'
          · left; exact List.mem_cons_of_mem _ h'
          · right; exact h'

mutual

theorem collectByDepth_keys : ∀ (h : HWord) (m : DMap),
    allGE 1 h = true → ∀ p ∈ collectByDepth h m, p ∈ m ∨ 1 ≤ p.1
  | .mk b cs d, m => by
      intro hge p hp
      rw [allGE] at hge
      simp only [Bool.and_eq_true, decide_eq_true_eq] at hge
      rw [collectByDepth] at hp
      rcases collectList_keys cs _ hge.2 p hp with h | h
      · rcases mem_mpushD m d _ p h with h' | h'
        · left; exact h'
        · right; omega
      · right; exact h

theorem collectList_keys : ∀ (hs : List HWord) (m : DMap),
    allGEList 1 hs = true → ∀ p ∈ collectList hs m, p ∈ m ∨ 1 ≤ p.1
  | [], m => by intro _ p hp; rw [collectList] at hp; left; exact hp
  | h :: hs, m => by
      intro hge p hp
      rw [allGEList] at hge
      simp only [Bool.and_eq_true] at hge
      rw [collectList] at hp
      rcases collectList_keys hs _ hge.2 p hp with h' | h'
      · exact collectByDepth_keys h m hge.1 p h'
      · right; exact h'

end

/-- The children of a depth-0 subtree are all at depth ≥ 1. -/
theorem buildSubtree_children_allGE (root : Word) :
    allGEList 1 (buildSubtree root 0).children = true := by
  rw [buildSubtree_eq]
  simp only [HWord.children, if_pos rfl, Nat.zero_add]
  exact allGEList_append _ _ _ (buildList_allGE _ 1) (buildList_allGE _ 1)

/-- The depth map of a record: the depth-0 row holds exactly the root
subtree, followed by the rows produced from its children, whose keys are
all ≥ 1. -/
theorem depthMapOf_struct (root : Word) :
    depthMapOf root = (0, [buildSubtree root 0]) :: collectList (buildSubtree root 0).children []
    ∧ ∀ p ∈ collectList (buildSubtree root 0).children [], 1 ≤ p.1 := by
  constructor
  · rw [depthMapOf, collectByDepth_eq]
    have hd : (buildSubtree root 0).depth = 0 := by rw [buildSubtree_eq]; simp [HWord.depth]
    rw [hd, mpushD]
    exact collectList_keep0 _ _ _ (buildSubtree_children_allGE root)
  · intro p hp
    rcases collectList_keys _ _ (buildSubtree_children_allGE root) p hp with h | h
    · exact absurd h (by simp)
    · exact h

/-! ## Node-identity strings -/

theorem mkNodeId_data (w : String) (d i : Nat) :
    (mkNodeId w d i).data =
      (w.data ++ '_' :: (Nat.repr d).data) ++ '_' :: (Nat.repr i).data := by
  rw [mkNodeId]
  simp only [String.data_append, show ("_" : String).data = ['_'] from rfl,
    List.singleton_append, List.append_assoc, List.cons_append, List.nil_append]

theorem mkNodeId_ne_main (w : String) (d i : Nat) : mkNodeId w d i ≠ "main" := by
  intro h
  have h1 : '_' ∈ (mkNodeId w d i).data := by
    rw [mkNodeId_data]
    exact List.mem_append.mpr (Or.inl (List.mem_append.mpr (Or.inr (List.mem_cons_self _ _))))
  rw [h] at h1
  exact absurd h1 (by decide)

/-- Splitting a character list at the last occurrence of `a` is unique. -/
theorem append_cons_inj (a : Char) :
    ∀ (xs : List Char) (ys : List Char) (xs' ys' : List Char), a ∉ ys → a ∉ ys' →
      xs ++ a :: ys = xs' ++ a :: ys' → xs = xs' ∧ ys = ys'
  | [], ys, xs', ys' => by
      intro hy hy' heq
      cases xs' with
      | nil => simpa using heq
      | cons x t =>
          exfalso
          simp only [List.nil_append, List.cons_append, List.cons.injEq] at heq
          exact hy (heq.2 ▸ List.mem_append.mpr (Or.inr (List.mem_cons_self _ _)))
  | x :: t, ys, xs', ys' => by
      intro hy hy' heq
      cases xs' with
      | nil =>
          exfalso
          simp only [List.nil_append, List.cons_append, List.cons.injEq] at heq
          exact hy' (heq.2.symm ▸ List.mem_append.mpr (Or.inr (List.mem_cons_self _ _)))
      | cons x' t' =>
          simp only [List.cons_append, List.cons.injEq] at heq
          obtain ⟨h1, h2⟩ := append_cons_inj a t ys t' ys' hy hy' heq.2
          exact ⟨by rw [heq.1, h1], h2⟩

/-- Distinct surface words produce distinct node identities (the decimal
components contain no underscore, so the identity determines the word). -/
theorem mkNodeId_inj_word (w1 w2 : String) (d1 i1 d2 i2 : Nat)
    (h : mkNodeId w1 d1 i1 = mkNodeId w2 d2 i2) : w1 = w2 := by
  have hd := congrArg String.data h
  rw [mkNodeId_data, mkNodeId_data] at hd
  obtain ⟨h1, -⟩ := append_cons_inj '_' _ _ _ _
    (underscore_not_mem_repr i1) (underscore_not_mem_repr i2) hd
  obtain ⟨h2, -⟩ := append_cons_inj '_' _ _ _ _
    (underscore_not_mem_repr d1) (underscore_not_mem_repr d2) h1
  exact String.ext h2

/-! ## Shape of the `nodeMap` entries -/

/-- Every entry of the node map is either the distinguished `"main"`
identity for the root's surface word, or an identity derived from its own
key. -/
def goodEntry (rootw : String) (p : String × String) : Prop :=
  (p.2 = "main" ∧ p.1 = rootw) ∨ ∃ d i, p.2 = mkNodeId p.1 d i

theorem rowMap_good (rootw : String) (d : Nat) :
    ∀ (row : List HWord) (i : Nat) (m : SMap), (∀ p ∈ m, goodEntry rootw p) →
      (d = 0 → ∀ h ∈ row, h.base.word = rootw) →
      ∀ p ∈ rowMap d i row m, goodEntry rootw p
  | [], i, m => by intro hm _ p hp; rw [rowMap] at hp; exact hm p hp
  | h :: hs, i, m => by
      intro hm h0 p hp
      rw [rowMap] at hp
      refine rowMap_good rootw d hs (i + 1) _ ?_ (fun hd hh hmem => h0 hd hh (by simp [hmem])) p hp
      intro q hq
      rcases mem_mset _ _ _ q hq with h' | h'
      · exact hm q h'
      · subst h'
        by_cases hd : d = 0
        · rw [if_pos hd]
          exact Or.inl ⟨rfl, h0 hd h (List.mem_cons_self _ _)⟩
        · rw [if_neg hd]
          exact Or.inr ⟨d, i, rfl⟩

theorem mapsOf_good (rootw : String) :
    ∀ (dm : DMap) (m : SMap), (∀ p ∈ m, goodEntry rootw p) →
      (∀ q ∈ dm, q.1 = 0 → ∀ h ∈ q.2, h.base.word = rootw) →
      ∀ p ∈ mapsOf dm m, goodEntry rootw p
  | [], m => by intro hm _ p hp; rw [mapsOf] at hp; exact hm p hp
  | (d, row) :: rest, m => by
      intro hm hdm p hp
      rw [mapsOf] at hp
      refine mapsOf_good rootw rest _ ?_ (fun q hq => hdm q (by simp [hq])) p hp
      exact rowMap_good rootw d row 0 m hm (fun hd => hdm (d, row) (List.mem_cons_self _ _) hd)

theorem buildSubtree_base (w : Word) (d : Nat) : (buildSubtree w d).base = w := by
  rw [buildSubtree_eq]
  simp [HWord.base]

theorem nodeIdMapOf_good (root : Word) :
    ∀ p ∈ nodeIdMapOf root, goodEntry root.word p := by
  rw [nodeIdMapOf_eq]
  obtain ⟨hstruct, hkeys⟩ := depthMapOf_struct root
  rw [hstruct]
  refine mapsOf_good root.word _ _ (by simp) ?_
  intro q hq hq0
  rcases List.mem_cons.mp hq with h | h
  · subst h
    intro h hh
    obtain rfl : h = buildSubtree root 0 := by simpa using hh
    rw [buildSubtree_base]
  · exact absurd hq0 (by have := hkeys q h; omega)

/-- The node map is injective: distinct keys hold distinct node ids. -/
theorem nodeIdMapOf_inj (root : Word) (k1 k2 v : String)
    (h1 : mget (nodeIdMapOf root) k1 = some v) (h2 : mget (nodeIdMapOf root) k2 = some v) :
    k1 = k2 := by
  have g1 := nodeIdMapOf_good root _ (mget_mem _ _ _ h1)
  have g2 := nodeIdMapOf_good root _ (mget_mem _ _ _ h2)
  rcases g1 with ⟨hv1, hk1⟩ | ⟨d1, i1, hv1⟩ <;> rcases g2 with ⟨hv2, hk2⟩ | ⟨d2, i2, hv2⟩
  · exact hk1.trans hk2.symm
  · exact absurd (hv2.symm.trans hv1) (mkNodeId_ne_main _ _ _)
  · exact absurd (hv1.symm.trans hv2) (mkNodeId_ne_main _ _ _)
  · exact mkNodeId_inj_word _ _ _ _ _ _ (hv1.symm.trans hv2)

/-! ## C6: layout positions -/

/-- Spec-side row layout (§4.2.2): the `k`-th of the `n` nodes collected at
depth `d` sits at `x = (k - (n-1)/2) * H`, `y = d * V` with `H = 250`,
`V = 200` (each row is centered around `x = 0`). -/
def specRow (d n : Nat) : Nat → List HWord → List GNode
  | _, [] => []
  | k, h :: hs =>
      { id := if d = 0 then "main" else mkNodeId h.base.word d k,
        x := ((k : ℚ) - ((n : ℚ) - 1) / 2) * 250,
        y := (d : ℚ) * 200,
        data := h } :: specRow d n (k + 1) hs

def specNodes : DMap → List GNode
  | [] => []
  | (d, row) :: rest => specRow d row.length 0 row ++ specNodes rest

theorem rowNodes_eq_specRow (d n : Nat) :
    ∀ (i : Nat) (row : List HWord), rowNodes d n i row = specRow d n i row
  | i, [] => by rw [rowNodes, specRow]
  | i, h :: hs => by
      rw [rowNodes, specRow, rowNodes_eq_specRow d n (i + 1) hs]
      have hx : -(((n : ℚ) - 1) * 250 / 2) + (i : ℚ) * 250
          = ((i : ℚ) - ((n : ℚ) - 1) / 2) * 250 := by ring
      rw [hx]

theorem nodesOf_eq_specNodes : ∀ dm : DMap, nodesOf dm = specNodes dm
  | [] => by rw [nodesOf, specNodes]
  | (d, row) :: rest => by
      rw [nodesOf, specNodes, rowNodes_eq_specRow, nodesOf_eq_specNodes rest]

/-- C6: every node of the projection at depth `d`, the `k`-th of the `n`
nodes collected at that depth, is positioned at `y = d * 200` and
`x = (k - (n-1)/2) * 250` — the rows of `depthMap` laid out exactly as the
spec's centered-row formula describes. -/
theorem c6_layout : ∀ root : Word, projectNodes root = specNodes (depthMapOf root) := by
  intro root
  rw [projectNodes_eq, nodesOf_eq_specNodes]

/-! ## C3: the unique "main" node -/

theorem rowNodes_ne_main (d n : Nat) (hd : d ≠ 0) :
    ∀ (i : Nat) (row : List HWord), ∀ nd ∈ rowNodes d n i row, nd.id ≠ "main"
  | i, [] => by intro nd hnd; rw [rowNodes] at hnd; exact absurd hnd (by simp)
  | i, h :: hs => by
      intro nd hnd
      rw [rowNodes] at hnd
      rcases List.mem_cons.mp hnd with h' | h'
      · rw [h']
        simp only [if_neg hd]
        exact mkNodeId_ne_main _ _ _
      · exact rowNodes_ne_main d n hd (i + 1) hs nd h'

theorem nodesOf_filter_main :
    ∀ dm : DMap, (∀ q ∈ dm, 1 ≤ q.1) →
      (nodesOf dm).filter (fun n => n.id == "main") = []
  | [] => by intro _; rw [nodesOf]; rfl
  | (d, row) :: rest => by
      intro hk
      rw [nodesOf, List.filter_append]
      have h1 : (rowNodes d row.length 0 row).filter (fun n => n.id == "main") = [] := by
        refine List.filter_eq_nil_iff.mpr ?_
        intro nd hnd
        have := rowNodes_ne_main d row.length (by have := hk (d, row) (by simp); omega) 0 row nd hnd
        simpa using this
      rw [h1, nodesOf_filter_main rest (fun q hq => hk q (by simp [hq]))]
      rfl

/-- C3: the projection's node list contains exactly one node whose identity
is `"main"`, and that node's data carries exactly the input record (the
node data is the record spread together with the `children`/`depth`
bookkeeping fields; its record part `base` is the root itself). -/
theorem c3_unique_main :
    ∀ root : Word,
      ((projectNodes root).filter (fun n => n.id == "main")).map (fun n => n.data.base)
        = [root] := by
  intro root
  obtain ⟨hstruct, hkeys⟩ := depthMapOf_struct root
  rw [projectNodes_eq, hstruct, nodesOf, List.filter_append,
    nodesOf_filter_main _ hkeys, List.append_nil]
  rw [rowNodes, rowNodes]
  simp only [if_pos rfl, List.filter]
  simp [buildSubtree_base]

/-! ## C4: no dangling edges -/

theorem rowMap_values (d n : Nat) :
    ∀ (i : Nat) (row : List HWord) (m : SMap), ∀ p ∈ rowMap d i row m,
      p ∈ m ∨ p.2 ∈ (rowNodes d n i row).map GNode.id
  | i, [], m => by intro p hp; rw [rowMap] at hp; left; exact hp
  | i, h :: hs, m => by
      intro p hp
      rw [rowMap] at hp
      rcases rowMap_values d n (i + 1) hs _ p hp with h' | h'
      · rcases mem_mset _ _ _ p h' with h'' | h''
        · left; exact h''
        · right
          rw [rowNodes]
          subst h''
          simp
      · right
        rw [rowNodes]
        simpa using Or.inr h'

theorem mapsOf_values :
    ∀ (dm : DMap) (m : SMap), ∀ p ∈ mapsOf dm m,
      p ∈ m ∨ p.2 ∈ (nodesOf dm).map GNode.id
  | [], m => by intro p hp; rw [mapsOf] at hp; left; exact hp
  | (d, row) :: rest, m => by
      intro p hp
      rw [mapsOf] at hp
      rcases mapsOf_values rest _ p hp with h' | h'
      · rcases rowMap_values d row.length 0 row m p h' with h'' | h''
        · left; exact h''
        · right; rw [nodesOf]; simp only [List.map_append, List.mem_append]; left; exact h''
      · right; rw [nodesOf]; simp only [List.map_append, List.mem_append]; right; exact h'

/-- Every identity stored in the node map is the identity of an emitted node. -/
theorem nodeIdMapOf_values (root : Word) (k v : String)
    (h : mget (nodeIdMapOf root) k = some v) : v ∈ (projectNodes root).map GNode.id := by
  have hm := mget_mem _ _ _ h
  rw [nodeIdMapOf_eq] at hm
  rcases mapsOf_values _ _ _ hm with h' | h'
  · exact absurd h' (by simp)
  · rw [projectNodes_eq]; exact h'

/-- Characterization of the edges the edge pass can emit. -/
theorem addEdge_mem (nm : SMap) (acc : List GEdge) (cw pw : String) :
    ∀ e ∈ addEdge nm acc cw pw, e ∈ acc ∨
      ∃ s t, mget nm pw = some s ∧ mget nm cw = some t
        ∧ e = { id := mkEdgeId s t, source := s, target := t } := by
  intro e he
  rw [addEdge] at he
  rcases hpw : mget nm pw with _ | s <;> rcases hcw : mget nm cw with _ | t <;>
    rw [hpw, hcw] at he
  all_goals try (left; exact he)
  dsimp only at he
  split at he
  · left; exact he
  · rcases List.mem_append.mp he with h' | h'
    · left; exact h'
    · right; exact ⟨s, t, rfl, rfl, by simpa using h'⟩

theorem buildEdges_mem (nm : SMap) :
    ∀ (pm : SMap) (acc : List GEdge), ∀ e ∈ buildEdges nm pm acc, e ∈ acc ∨
      ∃ cw pw, (cw, pw) ∈ pm ∧ ∃ s t, mget nm pw = some s ∧ mget nm cw = some t
        ∧ e = { id := mkEdgeId s t, source := s, target := t }
  | [], acc => by intro e he; rw [buildEdges] at he; left; exact he
  | (cw, pw) :: rest, acc => by
      intro e he
      rw [buildEdges] at he
      rcases buildEdges_mem nm rest _ e he with h' | ⟨cw', pw', hmem, hrest⟩
      · rcases addEdge_mem nm acc cw pw e h' with h'' | ⟨s, t, h1, h2, h3⟩
        · left; exact h''
        · right; exact ⟨cw, pw, List.mem_cons_self _ _, s, t, h1, h2, h3⟩
      · right; exact ⟨cw', pw', List.mem_cons_of_mem _ hmem, hrest⟩

/-- C4: both endpoints of every emitted edge are identities of emitted
nodes. -/
theorem c4_no_dangling :
    ∀ root : Word, (projectEdges root).all (fun e =>
      ((projectNodes root).map GNode.id).contains e.source
      && ((projectNodes root).map GNode.id).contains e.target) = true := by
  intro root
  rw [List.all_eq_true]
  intro e he
  rw [projectEdges] at he
  split at he
  · exact absurd he (by simp)
  · rcases buildEdges_mem _ _ _ e he with h' | ⟨cw, pw, hmem, s, t, h1, h2, h3⟩
    · exact absurd h' (by simp)
    · have hs := nodeIdMapOf_values root pw s h1
      have ht := nodeIdMapOf_values root cw t h2
      subst h3
      simp only [Bool.and_eq_true]
      exact ⟨List.elem_eq_true_of_mem hs, List.elem_eq_true_of_mem ht⟩

/-- Witness for C4 on Scenario A: its projection has edges, and the check
holds there. -/
theorem c4_no_dangling_witness :
    (projectEdges wScenA).all (fun e =>
      ((projectNodes wScenA).map GNode.id).contains e.source
      && ((projectNodes wScenA).map GNode.id).contains e.target) = true :=
  c4_no_dangling wScenA

/-! ## C5: edge identities and duplicate suppression -/

/-- Invariant of the edge pass: every accumulated edge's identity is the
source/target composite, and identities are pairwise distinct. -/
def edgeInv (acc : List GEdge) : Prop :=
  (∀ e ∈ acc, e.id = mkEdgeId e.source e.target) ∧ (acc.map GEdge.id).Nodup

theorem addEdge_inv (nm : SMap) (acc : List GEdge) (cw pw : String)
    (h : edgeInv acc) : edgeInv (addEdge nm acc cw pw) := by
  rw [addEdge]
  rcases mget nm pw with _ | s <;> rcases mget nm cw with _ | t
  · exact h
  · exact h
  · exact h
  · dsimp only
    split
    · exact h
    · rename_i hfresh
      constructor
      · intro e he
        rcases List.mem_append.mp he with h' | h'
        · exact h.1 e h'
        · obtain rfl : e = { id := mkEdgeId s t, source := s, target := t } := by
            simpa using h'
          rfl
      · rw [List.map_append]
        simp only [List.map_cons, List.map_nil]
        rw [List.nodup_append]
        refine ⟨h.2, List.nodup_singleton _, ?_⟩
        intro a ha hb
        obtain rfl : a = mkEdgeId s t := by simpa using hb
        rcases List.mem_map.mp ha with ⟨e, hmem, hid⟩
        have hfresh' : (acc.any fun e => e.id == mkEdgeId s t) = false := by
          simpa using hfresh
        have := List.any_eq_false.mp hfresh' e hmem
        simp only [beq_eq_false_iff_ne, ne_eq] at this
        exact this (by simpa using hid)

theorem buildEdges_inv (nm : SMap) :
    ∀ (pm : SMap) (acc : List GEdge), edgeInv acc → edgeInv (buildEdges nm pm acc)
  | [], acc => by intro h; rw [buildEdges]; exact h
  | (cw, pw) :: rest, acc => by
      intro h
      rw [buildEdges]
      exact buildEdges_inv nm rest _ (addEdge_inv nm acc cw pw h)

theorem projectEdges_inv (root : Word) : edgeInv (projectEdges root) := by
  rw [projectEdges]
  split
  · exact ⟨by simp, by simp⟩
  · exact buildEdges_inv _ _ [] ⟨by simp, by simp⟩

/-- C5: no two edges of the projection share the same ordered
(source, target) pair; every edge's identity is the `e_<source>_to_<target>`
composite, and identities are emitted at most once (pairwise distinct). -/
theorem c5_unique_edges :
    ∀ root : Word,
      (projectEdges root).Pairwise (fun e1 e2 => e1.source ≠ e2.source ∨ e1.target ≠ e2.target)
      ∧ (projectEdges root).all (fun e => e.id == mkEdgeId e.source e.target) = true
      ∧ ((projectEdges root).map GEdge.id).Nodup := by
  intro root
  obtain ⟨hshape, hnodup⟩ := projectEdges_inv root
  refine ⟨?_, ?_, hnodup⟩
  · have hp : (projectEdges root).Pairwise (fun e1 e2 => e1.id ≠ e2.id) := by
      have := hnodup
      rw [List.Nodup, List.pairwise_map] at this
      exact this
    refine List.Pairwise.imp_of_mem ?_ hp
    intro e1 e2 h1 h2 hne
    by_contra hc
    push_neg at hc
    exact hne (by rw [hshape e1 h1, hshape e2 h2, hc.1, hc.2])
  · rw [List.all_eq_true]
    intro e he
    simpa using hshape e he

/-! ## C9: self-loops -/

/-- A record whose root child carries the same surface word (as in the
sample record "monde", whose `roots` chain repeats "mundus" at two
consecutive depths). -/
def aChild : Word := .mk "a" "Latin" none none [] []

def rLoop : Word := .mk "a" "English" none none [aChild] []

/-- C9 counterexample: when parent and child share the surface word, the
single emitted edge is a self-loop — its source and target identities are
the same node. -/
theorem c9_counterexample :
    (projectEdges rLoop).map (fun e => (e.source, e.target))
      = [(mkNodeId "a" 1 0, mkNodeId "a" 1 0)] := by
  simp [projectEdges, projectNodes, nodeIdMapOf, parentMapOf, depthMapOf, rLoop, aChild,
    buildSubtree, buildList, collectByDepth, collectList, mpushD, createNodes, createRow,
    mset, mget, flattenHierarchy, flattenList, buildEdges, addEdge,
    Word.word, Word.roots, Word.etymology, HWord.base, HWord.children, HWord.depth]

/-- C9 (amended): provided no tree node shares its surface word with its
parent (no entry of the parent map relates a word to itself), every emitted
edge connects two distinct nodes — the node map is injective, so distinct
parent/child words resolve to distinct identities. -/
theorem c9_amended :
    ∀ root : Word, (parentMapOf root).all (fun p => !(p.1 == p.2)) = true →
      (projectEdges root).all (fun e => !(e.source == e.target)) = true := by
  intro root hall
  rw [List.all_eq_true]
  intro e he
  rw [projectEdges] at he
  split at he
  · exact absurd he (by simp)
  · rcases buildEdges_mem _ _ _ e he with h' | ⟨cw, pw, hmem, s, t, h1, h2, h3⟩
    · exact absurd h' (by simp)
    · subst h3
      simp only [Bool.not_eq_true', beq_eq_false_iff_ne, ne_eq]
      intro hst
      subst hst
      have hcwpw : cw ≠ pw := by
        have := List.all_eq_true.mp hall (cw, pw) hmem
        simpa using this
      exact hcwpw ((nodeIdMapOf_inj root cw pw s h2 h1).symm ▸ rfl)

/-- Witness for C9 (amended) on Scenario A, whose parent map has three
entries, none relating a word to itself. -/
theorem c9_amended_witness :
    (parentMapOf wScenA).all (fun p => !(p.1 == p.2)) = true
    ∧ (projectEdges wScenA).all (fun e => !(e.source == e.target)) = true := by
  have h : (parentMapOf wScenA).all (fun p => !(p.1 == p.2)) = true := by
    simp [parentMapOf, wScenA, wEtymRoot, wEtymLa, wEtymon, wLogia,
      buildSubtree, buildList, flattenHierarchy, flattenList, mset,
      Word.word, Word.roots, Word.etymology, HWord.base, HWord.children, HWord.depth]
  exact ⟨h, c9_amended wScenA h⟩

/-! ## C2: duplicate sibling surface words -/

/-- Scenario C style record: two sibling `roots` entries both named
"mundus", with different definitions. -/
def m1 : Word := .mk "mundus" "Latin" (some "world, universe") none [] []

def m2 : Word := .mk "mundus" "Latin" (some "clean, elegant") none [] []

def rC : Word := .mk "monde" "French" none (some 1050) [m1, m2] []

/-- C2 counterexample: the projection creates the two distinct "mundus"
nodes, but emits a single edge in total — not two distinct edges from
"main" — because the parent map and node map are keyed by surface word. -/
theorem c2_counterexample :
    ((projectNodes rC).filter (fun n => n.data.base.word == "mundus")).length = 2
    ∧ (projectEdges rC).length = 1 := by
  constructor
  · simp [projectNodes, depthMapOf, rC, m1, m2,
      buildSubtree, buildList, collectByDepth, collectList, mpushD, createNodes, createRow,
      mset, Word.word, Word.roots, Word.etymology, HWord.base, HWord.children, HWord.depth]
  · simp [projectEdges, projectNodes, nodeIdMapOf, parentMapOf, depthMapOf, rC, m1, m2,
      buildSubtree, buildList, collectByDepth, collectList, mpushD, createNodes, createRow,
      mset, mget, flattenHierarchy, flattenList, buildEdges, addEdge,
      Word.word, Word.roots, Word.etymology, HWord.base, HWord.children, HWord.depth]

/-- C2 (amended): on the Scenario C record the projection creates two
distinct nodes carrying the two "mundus" entries, but only one edge from
"main", whose target is the later of the two duplicate nodes (the
surface-word-keyed maps collapse the pair during edge creation). -/
theorem c2_amended :
    (projectNodes rC).map (fun n => (n.id, n.data.base))
      = [("main", rC), (mkNodeId "mundus" 1 0, m1), (mkNodeId "mundus" 1 1, m2)]
    ∧ (projectEdges rC).map (fun e => (e.source, e.target))
      = [("main", mkNodeId "mundus" 1 1)] := by
  constructor
  · simp [projectNodes, depthMapOf, rC, m1, m2,
      buildSubtree, buildList, collectByDepth, collectList, mpushD, createNodes, createRow,
      mset, Word.word, Word.roots, Word.etymology, HWord.base, HWord.children, HWord.depth]
  · simp [projectEdges, projectNodes, nodeIdMapOf, parentMapOf, depthMapOf, rC, m1, m2,
      buildSubtree, buildList, collectByDepth, collectList, mpushD, createNodes, createRow,
      mset, mget, flattenHierarchy, flattenList, buildEdges, addEdge,
      Word.word, Word.roots, Word.etymology, HWord.base, HWord.children, HWord.depth]

/-! ## C7: unexpected `etymology` fields on non-root entries

`stripAllEtym` removes the `etymology` field everywhere (on the entry and,
recursively, on its `roots` descendants); `clearNestedEtym` is "the same
record with the nested `etymology` fields removed": the top-level list is
kept (its entries and the `roots` entries being recursively stripped, as
they are non-root entries). -/

mutual

def stripAllEtym : Word → Word
  | .mk w l df y roots _ => .mk w l df y (stripAllList roots) []

def stripAllList : List Word → List Word
  | [] => []
  | r :: rs => stripAllEtym r :: stripAllList rs

end

def clearNestedEtym : Word → Word
  | .mk w l df y roots ety => .mk w l df y (stripAllList roots) (stripAllList ety)

theorem stripAllList_eq_map : ∀ l : List Word, stripAllList l = l.map stripAllEtym
  | [] => by rw [stripAllList]; rfl
  | r :: rs => by rw [stripAllList, List.map_cons, stripAllList_eq_map rs]

mutual

theorem stripAllEtym_idem : ∀ w : Word, stripAllEtym (stripAllEtym w) = stripAllEtym w
  | .mk w l df y roots ety => by
      simp only [stripAllEtym]
      rw [stripAllList_idem roots]

theorem stripAllList_idem : ∀ l : List Word, stripAllList (stripAllList l) = stripAllList l
  | [] => by simp only [stripAllList]
  | r :: rs => by
      simp only [stripAllList]
      rw [stripAllEtym_idem r, stripAllList_idem rs]

end

theorem stripAllEtym_word (w : Word) : (stripAllEtym w).word = w.word := by
  cases w; rw [stripAllEtym]; rfl

theorem stripAllEtym_roots (w : Word) : (stripAllEtym w).roots = stripAllList w.roots := by
  cases w; rw [stripAllEtym]; rfl

theorem stripAllEtym_clearNested (w : Word) :
    stripAllEtym (clearNestedEtym w) = stripAllEtym w := by
  cases w
  rw [clearNestedEtym]
  simp only [stripAllEtym]
  rw [stripAllList_idem]

theorem map_strip_strip (l : List Word) :
    l.map (fun v => stripAllEtym (stripAllEtym v)) = l.map stripAllEtym :=
  List.map_congr_left (fun v _ => stripAllEtym_idem v)

mutual

theorem processRoots_strip : ∀ w : Word,
    processRoots (stripAllEtym w) = stripAllList (processRoots w)
  | .mk w l df y roots ety => by
      simp only [stripAllEtym, processRoots]
      exact processRootsList_strip roots

theorem processRootsList_strip : ∀ l : List Word,
    processRootsList (stripAllList l) = stripAllList (processRootsList l)
  | [] => by simp only [stripAllList, processRootsList]
  | r :: rs => by
      simp only [stripAllList, processRootsList]
      rw [processRoots_strip r, processRootsList_strip rs]
      simp only [stripAllList_eq_map, List.map_append]

end

/-- Record with a nested (non-root) entry carrying an `etymology` field. -/
def bEty : Word := .mk "c" "Greek" none none [] []

def bWithEty : Word := .mk "b" "Latin" none none [] [bEty]

def rNested : Word := .mk "a" "English" none none [bWithEty] []

/-- C7 counterexample: the flattening does not equal the flattening of the
record with nested `etymology` fields removed — entries are passed through
by reference, so the second output entry still carries its `etymology`
field while the cleaned record's entry does not. -/
theorem c7_counterexample :
    flattenEtymologyTree (clearNestedEtym rNested) ≠ flattenEtymologyTree rNested := by
  intro h
  have h2 := congrArg (List.map (fun v => v.etymology.length)) h
  simp only [rNested, bWithEty, bEty, clearNestedEtym, stripAllEtym, stripAllList,
    flattenEtymologyTree, processRootsList, processRoots,
    Word.etymology, Word.roots, List.length_cons, List.length_nil] at h2
  simp at h2

/-- The flatten half of the amended C7: after erasing `etymology` fields
from every output entry, flattening the cleaned record and flattening the
original agree. -/
theorem flatten_clearNested_map (w : Word) :
    (flattenEtymologyTree (clearNestedEtym w)).map stripAllEtym
      = (flattenEtymologyTree w).map stripAllEtym := by
  cases w with
  | mk wd l df y roots ety =>
      rw [clearNestedEtym, flattenEtymologyTree, flattenEtymologyTree]
      simp only [Word.etymology, Word.roots, stripAllList_eq_map, List.length_map,
        List.map_append]
      have h1 : stripAllEtym
          (Word.mk wd l df y (List.map stripAllEtym roots) (List.map stripAllEtym ety))
          = stripAllEtym (Word.mk wd l df y roots ety) := by
        have h0 := stripAllEtym_clearNested (Word.mk wd l df y roots ety)
        rw [clearNestedEtym, stripAllList_eq_map, stripAllList_eq_map] at h0
        exact h0
      have h2 : List.map stripAllEtym (List.map stripAllEtym ety)
          = List.map stripAllEtym ety := by
        rw [List.map_map]; exact map_strip_strip ety
      have h3 : List.map stripAllEtym (processRootsList (List.map stripAllEtym roots))
          = List.map stripAllEtym (processRootsList roots) := by
        rw [← stripAllList_eq_map roots, processRootsList_strip roots, stripAllList_eq_map,
          List.map_map]
        exact map_strip_strip (processRootsList roots)
      split_ifs with hE hR
      all_goals simp only [List.map_cons, List.map_nil, h1, h2, h3]

mutual

def stripH : HWord → HWord
  | .mk b cs d => .mk (stripAllEtym b) (stripHList cs) d

def stripHList : List HWord → List HWord
  | [] => []
  | h :: hs => stripH h :: stripHList hs

end

/-- Erase `etymology` fields from the record data carried by a node. -/
def stripNode (n : GNode) : GNode :=
  { id := n.id, x := n.x, y := n.y, data := stripH n.data }

theorem stripHList_eq_map : ∀ hs : List HWord, stripHList hs = hs.map stripH
  | [] => by rw [stripHList]; rfl
  | h :: hs => by rw [stripHList, List.map_cons, stripHList_eq_map hs]

mutual

theorem stripH_idem : ∀ h : HWord, stripH (stripH h) = stripH h
  | .mk b cs d => by
      simp only [stripH]
      rw [stripAllEtym_idem, stripHList_idem cs]

theorem stripHList_idem : ∀ hs : List HWord, stripHList (stripHList hs) = stripHList hs
  | [] => by simp only [stripHList]
  | h :: hs => by
      simp only [stripHList]
      rw [stripH_idem h, stripHList_idem hs]

end

theorem stripHList_append (xs ys : List HWord) :
    stripHList (xs ++ ys) = stripHList xs ++ stripHList ys := by
  rw [stripHList_eq_map, stripHList_eq_map, stripHList_eq_map, List.map_append]

theorem stripH_depth (h : HWord) : (stripH h).depth = h.depth := by
  cases h; rw [stripH]; rfl

theorem stripH_word (h : HWord) : (stripH h).base.word = h.base.word := by
  cases h
  rw [stripH]
  simp only [HWord.base]
  rw [stripAllEtym_word]

mutual

theorem buildSubtree_strip : ∀ (w : Word) (d : Nat), 1 ≤ d →
    buildSubtree (stripAllEtym w) d = stripH (buildSubtree w d)
  | .mk wd l df y roots ety, d => by
      intro hd
      simp only [stripAllEtym, buildSubtree, stripH]
      rw [if_neg (by omega), if_neg (by omega)]
      rw [buildList_strip roots (d + 1) (by omega)]
      simp [stripHList_append]

theorem buildList_strip : ∀ (ws : List Word) (d : Nat), 1 ≤ d →
    buildList (stripAllList ws) d = stripHList (buildList ws d)
  | [], d => by intro _; simp only [stripAllList, buildList, stripHList]
  | w :: ws, d => by
      intro hd
      simp only [stripAllList, buildList, stripHList]
      rw [buildSubtree_strip w d hd, buildList_strip ws d hd]

end

/-- The hierarchical trees of the cleaned record and of the original agree
after stripping. -/
theorem buildSubtree0_strip (w : Word) :
    stripH (buildSubtree (clearNestedEtym w) 0) = stripH (buildSubtree w 0) := by
  cases w with
  | mk wd l df y roots ety =>
      rw [clearNestedEtym]
      simp only [buildSubtree, stripH, Nat.zero_add, eq_self_iff_true, if_true]
      rw [stripHList_append, stripHList_append]
      rw [buildList_strip roots 1 (le_refl 1), buildList_strip ety 1 (le_refl 1)]
      have h1 := stripAllEtym_clearNested (Word.mk wd l df y roots ety)
      rw [clearNestedEtym] at h1
      rw [h1]
      rw [stripHList_idem, stripHList_idem]

/-- Rows of a depth map, stripped. -/
def stripRows (m : DMap) : DMap := m.map (fun p => (p.1, stripHList p.2))

theorem mpushD_strip (k : Nat) (v : HWord) :
    ∀ m : DMap, mpushD (stripRows m) k (stripH v) = stripRows (mpushD m k v)
  | [] => by
      simp only [stripRows, List.map_nil, mpushD, List.map_cons, stripHList]
  | (k', vs) :: rest => by
      simp only [stripRows, List.map_cons]
      rw [mpushD, mpushD]
      by_cases hk : k' = k
      · rw [if_pos hk, if_pos hk]
        simp only [List.map_cons]
        rw [stripHList_append]
        simp only [stripHList]
      · rw [if_neg hk, if_neg hk]
        have h2 := mpushD_strip k v rest
        simp only [stripRows] at h2
        rw [h2]
        simp only [List.map_cons]

mutual

theorem collectByDepth_strip : ∀ (h : HWord) (m : DMap),
    collectByDepth (stripH h) (stripRows m) = stripRows (collectByDepth h m)
  | .mk b cs d, m => by
      simp only [stripH, collectByDepth]
      rw [show HWord.mk (stripAllEtym b) (stripHList cs) d = stripH (.mk b cs d) by
        rw [stripH]]
      rw [mpushD_strip d _ m, collectList_strip cs _]

theorem collectList_strip : ∀ (hs : List HWord) (m : DMap),
    collectList (stripHList hs) (stripRows m) = stripRows (collectList hs m)
  | [], m => by simp only [stripHList, collectList]
  | h :: hs, m => by
      simp only [stripHList, collectList]
      rw [collectByDepth_strip h m, collectList_strip hs _]

end

theorem depthMapOf_strip (w : Word) :
    stripRows (depthMapOf (clearNestedEtym w)) = stripRows (depthMapOf w) := by
  have h1 : ∀ x : Word, stripRows (depthMapOf x) = collectByDepth (stripH (buildSubtree x 0)) [] := by
    intro x
    rw [depthMapOf, ← collectByDepth_strip]
    rfl
  rw [h1, h1, buildSubtree0_strip]

theorem rowNodes_strip (d n : Nat) : ∀ (i : Nat) (row : List HWord),
    rowNodes d n i (stripHList row) = (rowNodes d n i row).map stripNode
  | i, [] => by simp only [stripHList, rowNodes, List.map_nil]
  | i, h :: hs => by
      simp only [stripHList, rowNodes, List.map_cons]
      rw [rowNodes_strip d n (i + 1) hs, stripH_word]
      rfl

theorem nodesOf_strip : ∀ dm : DMap, nodesOf (stripRows dm) = (nodesOf dm).map stripNode
  | [] => by simp only [stripRows, List.map_nil, nodesOf]
  | (d, row) :: rest => by
      simp only [stripRows, List.map_cons, nodesOf]
      rw [show (stripHList row).length = row.length by rw [stripHList_eq_map, List.length_map]]
      rw [rowNodes_strip]
      have h2 := nodesOf_strip rest
      simp only [stripRows] at h2
      rw [h2, List.map_append]

theorem rowMap_strip (d : Nat) : ∀ (i : Nat) (row : List HWord) (m : SMap),
    rowMap d i (stripHList row) m = rowMap d i row m
  | i, [], m => by simp only [stripHList, rowMap]
  | i, h :: hs, m => by
      simp only [stripHList, rowMap]
      rw [stripH_word, rowMap_strip d (i + 1) hs]

theorem mapsOf_strip : ∀ (dm : DMap) (m : SMap), mapsOf (stripRows dm) m = mapsOf dm m
  | [], m => by simp only [stripRows, List.map_nil]
  | (d, row) :: rest, m => by
      simp only [stripRows, List.map_cons, mapsOf]
      rw [rowMap_strip]
      have h2 := mapsOf_strip rest
      simp only [stripRows] at h2
      rw [h2]

mutual

theorem flattenHierarchy_strip : ∀ (h : HWord) (m : SMap),
    flattenHierarchy (stripH h) m = flattenHierarchy h m
  | .mk b cs d, m => by
      simp only [stripH, flattenHierarchy]
      rw [stripAllEtym_word, flattenList_strip]

theorem flattenList_strip : ∀ (parent : String) (cs : List HWord) (m : SMap),
    flattenList parent (stripHList cs) m = flattenList parent cs m
  | parent, [], m => by simp only [stripHList, flattenList]
  | parent, c :: cs, m => by
      simp only [stripHList, flattenList]
      rw [stripH_word, flattenHierarchy_strip c, flattenList_strip parent cs]

end

theorem projectNodes_strip (w : Word) :
    (projectNodes (clearNestedEtym w)).map stripNode = (projectNodes w).map stripNode := by
  rw [projectNodes_eq, projectNodes_eq, ← nodesOf_strip, ← nodesOf_strip, depthMapOf_strip]

theorem nodeIdMapOf_clearNested (w : Word) :
    nodeIdMapOf (clearNestedEtym w) = nodeIdMapOf w := by
  rw [nodeIdMapOf_eq, nodeIdMapOf_eq, ← mapsOf_strip, ← mapsOf_strip (depthMapOf w),
    depthMapOf_strip]

theorem parentMapOf_clearNested (w : Word) :
    parentMapOf (clearNestedEtym w) = parentMapOf w := by
  rw [parentMapOf, parentMapOf, ← flattenHierarchy_strip (buildSubtree (clearNestedEtym w) 0),
    buildSubtree0_strip, flattenHierarchy_strip]

theorem projectNodes_length_clearNested (w : Word) :
    (projectNodes (clearNestedEtym w)).length = (projectNodes w).length := by
  have h := congrArg List.length (projectNodes_strip w)
  simpa using h

theorem projectEdges_clearNested (w : Word) :
    projectEdges (clearNestedEtym w) = projectEdges w := by
  rw [projectEdges, projectEdges, projectNodes_length_clearNested, parentMapOf_clearNested,
    nodeIdMapOf_clearNested]

/-- C7 (amended): the flattening and the graph projection ignore
`etymology` fields on non-root entries *structurally*: removing the nested
`etymology` fields changes neither the number, order, identities nor
positions of the outputs — after erasing `etymology` fields from each
output entry (`stripAllEtym` on flatten entries, `stripNode` on node data)
the outputs coincide, and the edge list coincides exactly. (The literal
outputs differ only in that entries are passed through by reference and so
retain the unexpected field, cf. the counterexample.) -/
theorem c7_amended :
    ∀ w : Word,
      (flattenEtymologyTree (clearNestedEtym w)).map stripAllEtym
          = (flattenEtymologyTree w).map stripAllEtym
      ∧ (projectNodes (clearNestedEtym w)).map stripNode = (projectNodes w).map stripNode
      ∧ projectEdges (clearNestedEtym w) = projectEdges w :=
  fun w => ⟨flatten_clearNested_map w, projectNodes_strip w, projectEdges_clearNested w⟩
